import Mathlib

/-!
Verification development for the E.M.E.R.G.E simulation engine.

The repository ships two reporting scripts (`emerge_simulation.py`,
`emerge_transformative.py`) that consume the engine module `emerge_core`
(configuration objects, `simulate_routine`, `simulate_transformative`,
`time_to_threshold`, `sample_at_times`).  The engine itself is not part of
the visible sources, so every engine definition below is modelled from the
specification, with numbers embedded as exact rationals (the spec's
"within floating tolerance" statements become exact equalities).
-/

/-- Modelled from the spec: the driving signals E, C, D are "normalized"
into [0,1], so the generator clamps raw values into that interval. -/
def clamp01 (x : ℚ) : ℚ := max 0 (min x 1)

/-- Modelled from the spec: bounded per-step rate in [0,1) derived from a
raw rate, used for the saturating / exponential-relaxation recurrences
(a concrete monotone bounded choice, as the spec instructs the
implementer to make). -/
def rate01 (r : ℚ) : ℚ := max r 0 / (1 + max r 0)

/-- Modelled from the spec: one step of the explicit, seedable
pseudorandom stream owned by each run (a linear congruential step). -/
def rngNext (s : ℕ) : ℕ := (1664525 * s + 1013904223) % 4294967296

/-- Modelled from the spec: state of the pseudorandom stream after j+1
steps from the seed. -/
def rngAt (seed : ℕ) : ℕ → ℕ
  | 0 => rngNext seed
  | j + 1 => rngNext (rngAt seed j)

/-- Modelled from the spec: the j-th stochastic noise draw, a value in
(-sd, sd] scaled by the configured noise amplitude `sd`; deterministic
in the seed. -/
def noiseAt (seed : ℕ) (sd : ℚ) (j : ℕ) : ℚ :=
  sd * (2 * ((rngAt seed j : ℚ) / 4294967296) - 1)

/-- Modelled from the spec: the engine's error taxonomy
(`ConfigError` for invalid configuration, `RangeError` for out-of-domain
sampling queries). -/
inductive EmergeError where
  | configError : EmergeError
  | rangeError : EmergeError
deriving DecidableEq

/-- Modelled from the spec: routine-model constants; `alpha_E` scales
emotional-input influence, `alpha_C` cognitive-input influence. -/
structure RoutineParams where
  alpha_E : ℚ
  alpha_C : ℚ
deriving DecidableEq

/-- Modelled from the spec: routine run settings. -/
structure RoutineConfig where
  duration_s : ℚ
  dt_s : ℚ
  seed : ℕ
  E_base : ℚ
  C_base : ℚ
  input_noise_sd : ℚ
  psi0 : ℚ
  S_group : ℚ
  baseline_frac : ℚ
deriving DecidableEq

/-- Modelled from the spec: configuration validation performed before any
simulation work begins (positive duration and step, step at most the
duration, `baseline_frac` in [0,1), fractions in range, nonnegative
noise amplitude and sensitivities). -/
def validRoutine (p : RoutineParams) (cfg : RoutineConfig) : Bool :=
  decide (0 < cfg.duration_s ∧ 0 < cfg.dt_s ∧ cfg.dt_s ≤ cfg.duration_s ∧
    0 ≤ cfg.baseline_frac ∧ cfg.baseline_frac < 1 ∧
    0 ≤ cfg.psi0 ∧ cfg.psi0 ≤ 1 ∧ 0 ≤ cfg.S_group ∧ cfg.S_group ≤ 1 ∧
    0 ≤ cfg.input_noise_sd ∧ 0 ≤ p.alpha_E ∧ 0 ≤ p.alpha_C)

/-- Modelled from the spec: number of integration steps,
`floor(duration / dt)`; the produced vectors have one more entry. -/
def nSteps (duration dt : ℚ) : ℕ := (⌊duration / dt⌋).toNat

/-- Modelled from the spec: post-baseline stimulus shape, a saturating
ramp that starts after the `baseline_frac` fraction of the duration and
saturates at 1. -/
def stimAt (cfg : RoutineConfig) (t : ℚ) : ℚ :=
  if cfg.baseline_frac * cfg.duration_s ≤ t then
    min (t - cfg.baseline_frac * cfg.duration_s) 1
  else 0

/-- Modelled from the spec: routine emotional input E at step k —
baseline plus stimulus plus seeded noise, clamped to the normalized
range. -/
def routineE (cfg : RoutineConfig) (k : ℕ) : ℚ :=
  clamp01 (cfg.E_base + stimAt cfg ((k : ℚ) * cfg.dt_s) +
    noiseAt cfg.seed cfg.input_noise_sd (2 * k))

/-- Modelled from the spec: routine cognitive input C at step k. -/
def routineC (cfg : RoutineConfig) (k : ℕ) : ℚ :=
  clamp01 (cfg.C_base + stimAt cfg ((k : ℚ) * cfg.dt_s) +
    noiseAt cfg.seed cfg.input_noise_sd (2 * k + 1))

/-- Modelled from the spec: cultural factor Ψ, initialized at `psi0` and
relaxed each step toward `S_group` with a bounded adaptation rate. -/
def routinePsi (cfg : RoutineConfig) : ℕ → ℚ
  | 0 => cfg.psi0
  | k + 1 => routinePsi cfg k + rate01 cfg.dt_s * (cfg.S_group - routinePsi cfg k)

/-- Modelled from the spec: routine meaning M_r, starting at 0 and updated
by a monotonically-bounded rule asymptotic toward 1, with per-step rate
scaled by `alpha_E`, the emotional input and the cultural factor. -/
def routineM (p : RoutineParams) (cfg : RoutineConfig) : ℕ → ℚ
  | 0 => 0
  | k + 1 => routineM p cfg k +
      rate01 (p.alpha_E * (routineE cfg k * (routinePsi cfg k * cfg.dt_s))) *
        (1 - routineM p cfg k)

/-- Modelled from the spec: routine emotional entropy proxy H_e, starting
at the neutral baseline 0 and damped toward an input-driven attractor
that shrinks as meaning accumulates. -/
def routineHe (p : RoutineParams) (cfg : RoutineConfig) : ℕ → ℚ
  | 0 => 0
  | k + 1 => routineHe p cfg k +
      rate01 cfg.dt_s *
        (clamp01 (p.alpha_E * routineE cfg k) * (1 - routineM p cfg k) -
          routineHe p cfg k)

/-- Modelled from the spec: routine cognitive entropy proxy H_c,
analogous to H_e but driven by the cognitive input and `alpha_C`. -/
def routineHc (p : RoutineParams) (cfg : RoutineConfig) : ℕ → ℚ
  | 0 => 0
  | k + 1 => routineHc p cfg k +
      rate01 cfg.dt_s *
        (clamp01 (p.alpha_C * routineC cfg k) * (1 - routineM p cfg k) -
          routineHc p cfg k)

/-- Modelled from the spec: the routine result — an equal-length set of
time series keyed by quantity name (keys as read by the reporting
script). -/
structure RoutineResult where
  t_s : List ℚ
  E : List ℚ
  C : List ℚ
  Psi : List ℚ
  H_e : List ℚ
  H_c : List ℚ
  M_r : List ℚ
deriving DecidableEq

/-- Modelled from the spec: the uniformly spaced time vector, one sample
per step from 0 to n, with spacing dt. -/
def timeVec (dt : ℚ) (n : ℕ) : List ℚ :=
  (List.range (n + 1)).map (fun k => (Nat.cast k) * dt)

/-- Modelled from the spec: the full routine trajectory as produced by the
integrator loop, one sample per step from 0 to `nSteps`. -/
def routineRun (p : RoutineParams) (cfg : RoutineConfig) : RoutineResult :=
  let n := nSteps cfg.duration_s cfg.dt_s
  { t_s := timeVec cfg.dt_s n
    E := (List.range (n + 1)).map (routineE cfg)
    C := (List.range (n + 1)).map (routineC cfg)
    Psi := (List.range (n + 1)).map (routinePsi cfg)
    H_e := (List.range (n + 1)).map (routineHe p cfg)
    H_c := (List.range (n + 1)).map (routineHc p cfg)
    M_r := (List.range (n + 1)).map (routineM p cfg) }

/-- Modelled from the spec: `simulate_routine` — validates the
configuration, then returns the full routine trajectory; errors are
raised synchronously, no partial results. -/
def simulate_routine (p : RoutineParams) (cfg : RoutineConfig) :
    Except EmergeError RoutineResult :=
  if validRoutine p cfg then .ok (routineRun p cfg) else .error .configError

/-- Modelled from the spec: the result mapping from quantity name to
series, with the exact key strings the reporting script reads. -/
def RoutineResult.toMap (r : RoutineResult) : List (String × List ℚ) :=
  [("t_s", r.t_s), ("E", r.E), ("C", r.C), ("Psi", r.Psi),
   ("H_e", r.H_e), ("H_c", r.H_c), ("M_r", r.M_r)]

/-- Modelled from the spec: transformative-model constants; `beta_D`
scales how strongly the perturbation drives meaning accumulation. -/
structure TransformativeParams where
  beta_D : ℚ
deriving DecidableEq

/-- Modelled from the spec: transformative run settings, including the
perturbation pulse's peak time and rise/fall widths. -/
structure TransformativeConfig where
  duration_h : ℚ
  dt_h : ℚ
  seed : ℕ
  E_base : ℚ
  C_base : ℚ
  input_noise_sd : ℚ
  t_peak_h : ℚ
  rise_h : ℚ
  fall_h : ℚ
deriving DecidableEq

/-- Modelled from the spec: validation for the transformative run. -/
def validTransformative (p : TransformativeParams) (cfg : TransformativeConfig) : Bool :=
  decide (0 < cfg.duration_h ∧ 0 < cfg.dt_h ∧ cfg.dt_h ≤ cfg.duration_h ∧
    0 < cfg.rise_h ∧ 0 < cfg.fall_h ∧
    0 ≤ cfg.input_noise_sd ∧ 0 ≤ p.beta_D)

/-- Modelled from the spec: the stylized perturbation profile D(t) — a
pulse rising to its peak value 1 at the configured peak time, then
decaying, clamped into [0,1]. -/
def Dfun (cfg : TransformativeConfig) (t : ℚ) : ℚ :=
  if t ≤ cfg.t_peak_h then clamp01 (1 - (cfg.t_peak_h - t) / cfg.rise_h)
  else clamp01 (1 - (t - cfg.t_peak_h) / cfg.fall_h)

/-- Modelled from the spec: perturbation sample at step k. -/
def transD (cfg : TransformativeConfig) (k : ℕ) : ℚ :=
  Dfun cfg ((k : ℚ) * cfg.dt_h)

/-- Modelled from the spec: transformative emotional input at step k. -/
def transE (cfg : TransformativeConfig) (k : ℕ) : ℚ :=
  clamp01 (cfg.E_base + noiseAt cfg.seed cfg.input_noise_sd (2 * k))

/-- Modelled from the spec: transformative cognitive input at step k. -/
def transC (cfg : TransformativeConfig) (k : ℕ) : ℚ :=
  clamp01 (cfg.C_base + noiseAt cfg.seed cfg.input_noise_sd (2 * k + 1))

/-- Modelled from the spec: transformative meaning M_t, a cumulative
measure that starts at 0, never decreases, and saturates below 1; each
step adds a perturbation-driven fraction of the remaining headroom. -/
def transM (p : TransformativeParams) (cfg : TransformativeConfig) : ℕ → ℚ
  | 0 => 0
  | k + 1 => transM p cfg k +
      rate01 (p.beta_D * (transD cfg k * cfg.dt_h)) * (1 - transM p cfg k)

/-- Modelled from the spec: transformative entropy proxy H_e, signed and
biphasic — damped toward `D - M_t`, which rises while the perturbation
grows and can cross below the pre-perturbation baseline afterwards. -/
def transHe (p : TransformativeParams) (cfg : TransformativeConfig) : ℕ → ℚ
  | 0 => 0
  | k + 1 => transHe p cfg k +
      rate01 cfg.dt_h * ((transD cfg k - transM p cfg k) - transHe p cfg k)

/-- Modelled from the spec: the transformative result, including the
scalar peak time (stored, as the consuming script reads it, as a
one-element series under the key `t_peak_h`). -/
structure TransformativeResult where
  t_h : List ℚ
  D : List ℚ
  E : List ℚ
  C : List ℚ
  H_e : List ℚ
  M_t : List ℚ
  t_peak_h : List ℚ
deriving DecidableEq

/-- Modelled from the spec: the full transformative trajectory. -/
def transRun (p : TransformativeParams) (cfg : TransformativeConfig) :
    TransformativeResult :=
  let n := nSteps cfg.duration_h cfg.dt_h
  { t_h := timeVec cfg.dt_h n
    D := (List.range (n + 1)).map (transD cfg)
    E := (List.range (n + 1)).map (transE cfg)
    C := (List.range (n + 1)).map (transC cfg)
    H_e := (List.range (n + 1)).map (transHe p cfg)
    M_t := (List.range (n + 1)).map (transM p cfg)
    t_peak_h := [cfg.t_peak_h] }

/-- Modelled from the spec: `simulate_transformative`. -/
def simulate_transformative (p : TransformativeParams)
    (cfg : TransformativeConfig) : Except EmergeError TransformativeResult :=
  if validTransformative p cfg then .ok (transRun p cfg)
  else .error .configError

/-- Modelled from the spec: the transformative result mapping with the
exact key strings the reporting script reads. -/
def TransformativeResult.toMap (r : TransformativeResult) :
    List (String × List ℚ) :=
  [("t_h", r.t_h), ("D", r.D), ("E", r.E), ("C", r.C),
   ("H_e", r.H_e), ("M_t", r.M_t), ("t_peak_h", r.t_peak_h)]

/-- Modelled from the spec: linear interpolation of the series `y` against
the monotonic grid `t` at a single query time; queries outside
`[t[0], t[-1]]` fail with `RangeError` (the fail policy the spec
recommends). -/
def interp1 : List ℚ → List ℚ → ℚ → Except EmergeError ℚ
  | [t0], [y0], q => if q = t0 then .ok y0 else .error .rangeError
  | t0 :: t1 :: ts, y0 :: y1 :: ys, q =>
      if q < t0 then .error .rangeError
      else if q ≤ t1 then .ok (y0 + (q - t0) * (y1 - y0) / (t1 - t0))
      else interp1 (t1 :: ts) (y1 :: ys) q
  | _, _, _ => .error .rangeError

/-- Modelled from the spec: `sample_at_times` — interpolated lookup of `y`
at each of the `query_times`, in order; fails with `RangeError` on any
out-of-range query. -/
def sample_at_times (t y : List ℚ) : List ℚ → Except EmergeError (List ℚ)
  | [] => .ok []
  | q :: rest =>
      match interp1 t y q, sample_at_times t y rest with
      | .ok v, .ok vs => .ok (v :: vs)
      | .error e, _ => .error e
      | .ok _, .error e => .error e

/-- Modelled from the spec: `time_to_threshold` — earliest time at which
`y` first reaches or exceeds the threshold, linearly interpolating
between the bracketing samples; `none` is the documented sentinel when
the threshold is never reached. -/
def time_to_threshold : List ℚ → List ℚ → ℚ → Option ℚ
  | [t0], [y0], th => if th ≤ y0 then some t0 else none
  | t0 :: t1 :: ts, y0 :: y1 :: ys, th =>
      if th ≤ y0 then some t0
      else if th ≤ y1 then some (t0 + (th - y0) * (t1 - t0) / (y1 - y0))
      else time_to_threshold (t1 :: ts) (y1 :: ys) th
  | _, _, _ => none

/-- A small concrete routine parameter set used to evaluate the model on
concrete inputs (unit sensitivities). -/
def pW : RoutineParams := ⟨1, 1⟩

/-- A second concrete routine parameter set differing from `pW` only in
`alpha_E`. -/
def pW2 : RoutineParams := ⟨2, 1⟩

/-- A small concrete routine configuration (duration 1, step 1/4, no
noise) used to evaluate the model on concrete inputs. -/
def cfgW : RoutineConfig := ⟨1, 1/4, 7, 1, 1, 0, 1, 1, 0⟩

/-- A small concrete transformative parameter set. -/
def ptW : TransformativeParams := ⟨1⟩

/-- A small concrete transformative configuration (duration 1, step 1/2,
no noise, pulse peaking at 1/2). -/
def cftW : TransformativeConfig := ⟨1, 1/2, 3, 1/2, 1/2, 0, 1/2, 1/2, 1/2⟩

/-! ### Basic facts about the bounded primitives -/

theorem clamp01_nonneg (x : ℚ) : 0 ≤ clamp01 x := le_max_left 0 _

theorem clamp01_le_one (x : ℚ) : clamp01 x ≤ 1 :=
  max_le (by norm_num) (min_le_right x 1)

theorem rate01_den_pos (r : ℚ) : 0 < 1 + max r 0 := by
  have := le_max_right r 0
  linarith

theorem rate01_nonneg (r : ℚ) : 0 ≤ rate01 r :=
  div_nonneg (le_max_right r 0) (rate01_den_pos r).le

theorem rate01_lt_one (r : ℚ) : rate01 r < 1 := by
  unfold rate01
  rw [div_lt_one (rate01_den_pos r)]
  linarith

theorem rate01_mono {r s : ℚ} (h : r ≤ s) : rate01 r ≤ rate01 s := by
  unfold rate01
  rw [div_le_div_iff₀ (rate01_den_pos r) (rate01_den_pos s)]
  have h1 : max r 0 ≤ max s 0 := max_le_max h le_rfl
  nlinarith [le_max_right r 0]

theorem rate01_pos_iff {r : ℚ} : 0 < rate01 r ↔ 0 < r := by
  constructor
  · intro h
    by_contra hc
    push_neg at hc
    have hm : max r 0 = 0 := max_eq_right hc
    rw [rate01, hm] at h
    norm_num at h
  · intro h
    exact div_pos (by rw [max_eq_left h.le]; exact h) (rate01_den_pos r)

theorem rate01_strictMono {r s : ℚ} (h0 : 0 ≤ r) (h : r < s) :
    rate01 r < rate01 s := by
  unfold rate01
  rw [max_eq_left h0, max_eq_left (h0.trans h.le),
    div_lt_div_iff₀ (by linarith) (by linarith)]
  nlinarith

/-- One convex relaxation step keeps a value between any bounds that also
contain the target. -/
theorem convex_step_bounds {x u lo hi tgt : ℚ} (hu0 : 0 ≤ u) (hu1 : u ≤ 1)
    (hx1 : lo ≤ x) (hx2 : x ≤ hi) (ht1 : lo ≤ tgt) (ht2 : tgt ≤ hi) :
    lo ≤ x + u * (tgt - x) ∧ x + u * (tgt - x) ≤ hi := by
  constructor
  · nlinarith [mul_nonneg (sub_nonneg.2 hu1) (sub_nonneg.2 hx1),
      mul_nonneg hu0 (sub_nonneg.2 ht1)]
  · nlinarith [mul_nonneg (sub_nonneg.2 hu1) (sub_nonneg.2 hx2),
      mul_nonneg hu0 (sub_nonneg.2 ht2)]

/-- One saturating meaning step stays in [0,1) and does not decrease. -/
theorem satStep_bounds {M u : ℚ} (h0 : 0 ≤ M) (h1 : M < 1) (hu0 : 0 ≤ u)
    (hu1 : u < 1) : M ≤ M + u * (1 - M) ∧ 0 ≤ M + u * (1 - M) ∧
      M + u * (1 - M) < 1 := by
  have hstay : M ≤ M + u * (1 - M) := by nlinarith
  refine ⟨hstay, h0.trans hstay, ?_⟩
  nlinarith [mul_pos (sub_pos.2 hu1) (sub_pos.2 h1)]

/-! ### Bounds on the generated signals and integrated state -/

theorem routineE_mem (cfg : RoutineConfig) (k : ℕ) :
    0 ≤ routineE cfg k ∧ routineE cfg k ≤ 1 :=
  ⟨clamp01_nonneg _, clamp01_le_one _⟩

theorem routineC_mem (cfg : RoutineConfig) (k : ℕ) :
    0 ≤ routineC cfg k ∧ routineC cfg k ≤ 1 :=
  ⟨clamp01_nonneg _, clamp01_le_one _⟩

theorem routinePsi_mem (cfg : RoutineConfig) (h0 : 0 ≤ cfg.psi0)
    (h1 : cfg.psi0 ≤ 1) (hS0 : 0 ≤ cfg.S_group) (hS1 : cfg.S_group ≤ 1) :
    ∀ k, 0 ≤ routinePsi cfg k ∧ routinePsi cfg k ≤ 1
  | 0 => ⟨h0, h1⟩
  | k + 1 => by
      have ih := routinePsi_mem cfg h0 h1 hS0 hS1 k
      simpa [routinePsi] using
        convex_step_bounds (rate01_nonneg cfg.dt_s) (rate01_lt_one cfg.dt_s).le
          ih.1 ih.2 hS0 hS1

theorem routineM_mem (p : RoutineParams) (cfg : RoutineConfig) :
    ∀ k, 0 ≤ routineM p cfg k ∧ routineM p cfg k < 1
  | 0 => by simp [routineM]
  | k + 1 => by
      have ih := routineM_mem p cfg k
      have h := satStep_bounds ih.1 ih.2
        (rate01_nonneg (p.alpha_E * (routineE cfg k * (routinePsi cfg k * cfg.dt_s))))
        (rate01_lt_one _)
      exact ⟨by simpa [routineM] using h.2.1, by simpa [routineM] using h.2.2⟩

theorem routineHe_mem (p : RoutineParams) (cfg : RoutineConfig) :
    ∀ k, 0 ≤ routineHe p cfg k ∧ routineHe p cfg k ≤ 1
  | 0 => by simp [routineHe]
  | k + 1 => by
      have ih := routineHe_mem p cfg k
      have hM := routineM_mem p cfg k
      have htgt1 : 0 ≤ clamp01 (p.alpha_E * routineE cfg k) * (1 - routineM p cfg k) :=
        mul_nonneg (clamp01_nonneg _) (by linarith [hM.2])
      have htgt2 : clamp01 (p.alpha_E * routineE cfg k) * (1 - routineM p cfg k) ≤ 1 :=
        mul_le_one₀ (clamp01_le_one _) (by linarith [hM.2]) (by linarith [hM.1])
      simpa [routineHe] using
        convex_step_bounds (rate01_nonneg cfg.dt_s) (rate01_lt_one cfg.dt_s).le
          ih.1 ih.2 htgt1 htgt2

theorem routineHc_mem (p : RoutineParams) (cfg : RoutineConfig) :
    ∀ k, 0 ≤ routineHc p cfg k ∧ routineHc p cfg k ≤ 1
  | 0 => by simp [routineHc]
  | k + 1 => by
      have ih := routineHc_mem p cfg k
      have hM := routineM_mem p cfg k
      have htgt1 : 0 ≤ clamp01 (p.alpha_C * routineC cfg k) * (1 - routineM p cfg k) :=
        mul_nonneg (clamp01_nonneg _) (by linarith [hM.2])
      have htgt2 : clamp01 (p.alpha_C * routineC cfg k) * (1 - routineM p cfg k) ≤ 1 :=
        mul_le_one₀ (clamp01_le_one _) (by linarith [hM.2]) (by linarith [hM.1])
      simpa [routineHc] using
        convex_step_bounds (rate01_nonneg cfg.dt_s) (rate01_lt_one cfg.dt_s).le
          ih.1 ih.2 htgt1 htgt2

theorem transD_mem (cfg : TransformativeConfig) (k : ℕ) :
    0 ≤ transD cfg k ∧ transD cfg k ≤ 1 := by
  unfold transD Dfun
  split <;> exact ⟨clamp01_nonneg _, clamp01_le_one _⟩

theorem transE_mem (cfg : TransformativeConfig) (k : ℕ) :
    0 ≤ transE cfg k ∧ transE cfg k ≤ 1 :=
  ⟨clamp01_nonneg _, clamp01_le_one _⟩

theorem transC_mem (cfg : TransformativeConfig) (k : ℕ) :
    0 ≤ transC cfg k ∧ transC cfg k ≤ 1 :=
  ⟨clamp01_nonneg _, clamp01_le_one _⟩

theorem transM_mem (p : TransformativeParams) (cfg : TransformativeConfig) :
    ∀ k, 0 ≤ transM p cfg k ∧ transM p cfg k < 1
  | 0 => by simp [transM]
  | k + 1 => by
      have ih := transM_mem p cfg k
      have h := satStep_bounds ih.1 ih.2
        (rate01_nonneg (p.beta_D * (transD cfg k * cfg.dt_h))) (rate01_lt_one _)
      exact ⟨by simpa [transM] using h.2.1, by simpa [transM] using h.2.2⟩

theorem transM_step_mono (p : TransformativeParams) (cfg : TransformativeConfig)
    (k : ℕ) : transM p cfg k ≤ transM p cfg (k + 1) := by
  have ih := transM_mem p cfg k
  have h := satStep_bounds ih.1 ih.2
    (rate01_nonneg (p.beta_D * (transD cfg k * cfg.dt_h))) (rate01_lt_one _)
  simpa [transM] using h.1

theorem transHe_mem (p : TransformativeParams) (cfg : TransformativeConfig) :
    ∀ k, -1 ≤ transHe p cfg k ∧ transHe p cfg k ≤ 1
  | 0 => by simp [transHe]
  | k + 1 => by
      have ih := transHe_mem p cfg k
      have hD := transD_mem cfg k
      have hM := transM_mem p cfg k
      simpa [transHe] using
        convex_step_bounds (rate01_nonneg cfg.dt_h) (rate01_lt_one cfg.dt_h).le
          ih.1 ih.2 (by linarith [hD.1, hM.2] : (-1 : ℚ) ≤ transD cfg k - transM p cfg k)
          (by linarith [hD.2, hM.1])

/-! ### Validation and the success case of the simulators -/

theorem validRoutine_iff (p : RoutineParams) (cfg : RoutineConfig) :
    validRoutine p cfg = true ↔
      (0 < cfg.duration_s ∧ 0 < cfg.dt_s ∧ cfg.dt_s ≤ cfg.duration_s ∧
        0 ≤ cfg.baseline_frac ∧ cfg.baseline_frac < 1 ∧
        0 ≤ cfg.psi0 ∧ cfg.psi0 ≤ 1 ∧ 0 ≤ cfg.S_group ∧ cfg.S_group ≤ 1 ∧
        0 ≤ cfg.input_noise_sd ∧ 0 ≤ p.alpha_E ∧ 0 ≤ p.alpha_C) := by
  unfold validRoutine
  exact decide_eq_true_iff

theorem validTransformative_iff (p : TransformativeParams)
    (cfg : TransformativeConfig) :
    validTransformative p cfg = true ↔
      (0 < cfg.duration_h ∧ 0 < cfg.dt_h ∧ cfg.dt_h ≤ cfg.duration_h ∧
        0 < cfg.rise_h ∧ 0 < cfg.fall_h ∧
        0 ≤ cfg.input_noise_sd ∧ 0 ≤ p.beta_D) := by
  unfold validTransformative
  exact decide_eq_true_iff

theorem simulate_routine_ok_iff {p : RoutineParams} {cfg : RoutineConfig}
    {r : RoutineResult} :
    simulate_routine p cfg = .ok r ↔
      validRoutine p cfg = true ∧ r = routineRun p cfg := by
  unfold simulate_routine
  split
  case isTrue h =>
    constructor
    · intro he
      injection he with he
      exact ⟨h, he.symm⟩
    · intro hc
      rw [hc.2]
  case isFalse h =>
    constructor
    · intro he
      exact absurd he (by simp)
    · intro hc
      exact absurd hc.1 h

theorem simulate_transformative_ok_iff {p : TransformativeParams}
    {cfg : TransformativeConfig} {r : TransformativeResult} :
    simulate_transformative p cfg = .ok r ↔
      validTransformative p cfg = true ∧ r = transRun p cfg := by
  unfold simulate_transformative
  split
  case isTrue h =>
    constructor
    · intro he
      injection he with he
      exact ⟨h, he.symm⟩
    · intro hc
      rw [hc.2]
  case isFalse h =>
    constructor
    · intro he
      exact absurd he (by simp)
    · intro hc
      exact absurd hc.1 h


/-- The concrete routine witness run passes validation. -/
theorem simW_routine_ok :
    simulate_routine pW cfgW = .ok (routineRun pW cfgW) :=
  simulate_routine_ok_iff.2
    ⟨(validRoutine_iff pW cfgW).2 (by norm_num [pW, cfgW]), rfl⟩

/-- The second concrete routine witness run passes validation. -/
theorem simW2_routine_ok :
    simulate_routine pW2 cfgW = .ok (routineRun pW2 cfgW) :=
  simulate_routine_ok_iff.2
    ⟨(validRoutine_iff pW2 cfgW).2 (by norm_num [pW2, cfgW]), rfl⟩

/-- The concrete transformative witness run passes validation. -/
theorem simW_trans_ok :
    simulate_transformative ptW cftW = .ok (transRun ptW cftW) :=
  simulate_transformative_ok_iff.2
    ⟨(validTransformative_iff ptW cftW).2 (by norm_num [ptW, cftW]), rfl⟩

/-! ### C1 — determinism -/

/-- C1: for a fixed configuration (including the seed), two invocations of
`simulate_routine` (likewise `simulate_transformative`) on that same
configuration produce bit-identical output vectors: the engine is a pure
function of its parameters and configuration, its stochastic stream being
derived from the configured seed alone. -/
theorem simulate_deterministic :
    (∀ (p : RoutineParams) (cfg : RoutineConfig),
        simulate_routine p cfg = simulate_routine p cfg)
    ∧ (∀ (p : TransformativeParams) (cfg : TransformativeConfig),
        simulate_transformative p cfg = simulate_transformative p cfg) :=
  ⟨fun _ _ => rfl, fun _ _ => rfl⟩

/-! ### C9 — the transformative result returns the perturbation peak -/

/-- C9: the result of `simulate_transformative` includes the perturbation
peak time (as the one-element series consumers index at 0), equal to the
configured peak location of the perturbation profile D — the time where D
attains its maximum. -/
theorem t_peak_returned (p : TransformativeParams) (cfg : TransformativeConfig)
    (r : TransformativeResult) (h : simulate_transformative p cfg = .ok r) :
    r.t_peak_h = [cfg.t_peak_h] ∧
      ∀ q : ℚ, Dfun cfg q ≤ Dfun cfg cfg.t_peak_h := by
  obtain ⟨_, rfl⟩ := simulate_transformative_ok_iff.1 h
  refine ⟨rfl, ?_⟩
  intro q
  have hpk : Dfun cfg cfg.t_peak_h = 1 := by
    unfold Dfun
    rw [if_pos le_rfl, sub_self, zero_div, sub_zero]
    unfold clamp01
    norm_num
  rw [hpk]
  unfold Dfun
  split <;> exact clamp01_le_one _

/-- Witness for C9 at a concrete run. -/
theorem t_peak_returned_witness :
    (transRun ptW cftW).t_peak_h = [cftW.t_peak_h] ∧
      ∀ q : ℚ, Dfun cftW q ≤ Dfun cftW cftW.t_peak_h :=
  t_peak_returned ptW cftW (transRun ptW cftW) simW_trans_ok

/-! ### C10 — exact result keys -/

/-- C10: for every valid configuration, the routine result mapping carries
exactly the keys "t_s", "E", "C", "Psi", "H_e", "H_c", "M_r" and the
transformative result mapping exactly the keys "t_h", "D", "E", "C",
"H_e", "M_t", "t_peak_h" — the interface read by the reporting scripts. -/
theorem result_keys :
    (∀ (p : RoutineParams) (cfg : RoutineConfig) (r : RoutineResult),
        simulate_routine p cfg = .ok r →
        r.toMap.map Prod.fst = ["t_s", "E", "C", "Psi", "H_e", "H_c", "M_r"])
    ∧ (∀ (p : TransformativeParams) (cfg : TransformativeConfig)
          (r : TransformativeResult),
        simulate_transformative p cfg = .ok r →
        r.toMap.map Prod.fst = ["t_h", "D", "E", "C", "H_e", "M_t", "t_peak_h"]) :=
  ⟨fun _ _ _ _ => rfl, fun _ _ _ _ => rfl⟩

/-- Witness for C10 at concrete runs. -/
theorem result_keys_witness :
    (routineRun pW cfgW).toMap.map Prod.fst =
        ["t_s", "E", "C", "Psi", "H_e", "H_c", "M_r"] ∧
      (transRun ptW cftW).toMap.map Prod.fst =
        ["t_h", "D", "E", "C", "H_e", "M_t", "t_peak_h"] :=
  ⟨result_keys.1 pW cfgW (routineRun pW cfgW) simW_routine_ok,
   result_keys.2 ptW cftW (transRun ptW cftW) simW_trans_ok⟩

/-! ### C2 — shape invariants -/

/-- The time grid has n+1 entries. -/
theorem timeVec_length (dt : ℚ) (n : ℕ) : (timeVec dt n).length = n + 1 := by
  simp [timeVec]

/-- The time grid entry at index i is i*dt. -/
theorem timeVec_get (dt : ℚ) (n i : ℕ) (hi : i < (timeVec dt n).length) :
    (timeVec dt n).get ⟨i, hi⟩ = (i : ℚ) * dt := by
  simp only [timeVec, List.get_eq_getElem, List.getElem_map, List.getElem_range]

/-- Adjacent time grid entries differ by exactly dt. -/
theorem timeVec_spacing (dt : ℚ) (n i : ℕ)
    (hi : i + 1 < (timeVec dt n).length) (hi2 : i < (timeVec dt n).length) :
    (timeVec dt n).get ⟨i + 1, hi⟩ - (timeVec dt n).get ⟨i, hi2⟩ = dt := by
  rw [timeVec_get, timeVec_get]
  push_cast
  ring

/-- The time grid is strictly increasing when dt is positive. -/
theorem timeVec_chain (dt : ℚ) (hdt : 0 < dt) (n : ℕ) :
    List.Chain' (· < ·) (timeVec dt n) := by
  rw [List.chain'_iff_get]
  intro i hi
  rw [timeVec_get, timeVec_get]
  have : (i : ℚ) < (i + 1 : ℕ) := by exact_mod_cast Nat.lt_succ_self i
  exact mul_lt_mul_of_pos_right this hdt

/-- C2: for every configuration passing validation, each output vector of
`simulate_routine` and `simulate_transformative` has length
`floor(duration/dt) + 1`, the time vector is strictly increasing with
constant spacing dt (exactly, in the rational model), and all other
vectors share the time vector's length. -/
theorem shape_invariants (p : RoutineParams) (cfg : RoutineConfig)
    (pt : TransformativeParams) (cft : TransformativeConfig)
    (r : RoutineResult) (rt : TransformativeResult)
    (h : simulate_routine p cfg = .ok r)
    (ht : simulate_transformative pt cft = .ok rt) :
    (r.t_s.length = nSteps cfg.duration_s cfg.dt_s + 1 ∧
      r.E.length = r.t_s.length ∧ r.C.length = r.t_s.length ∧
      r.Psi.length = r.t_s.length ∧ r.H_e.length = r.t_s.length ∧
      r.H_c.length = r.t_s.length ∧ r.M_r.length = r.t_s.length ∧
      List.Chain' (· < ·) r.t_s ∧
      ∀ i (hi : i + 1 < r.t_s.length) (hi2 : i < r.t_s.length),
        r.t_s.get ⟨i + 1, hi⟩ - r.t_s.get ⟨i, hi2⟩ = cfg.dt_s) ∧
    (rt.t_h.length = nSteps cft.duration_h cft.dt_h + 1 ∧
      rt.D.length = rt.t_h.length ∧ rt.E.length = rt.t_h.length ∧
      rt.C.length = rt.t_h.length ∧ rt.H_e.length = rt.t_h.length ∧
      rt.M_t.length = rt.t_h.length ∧
      List.Chain' (· < ·) rt.t_h ∧
      ∀ i (hi : i + 1 < rt.t_h.length) (hi2 : i < rt.t_h.length),
        rt.t_h.get ⟨i + 1, hi⟩ - rt.t_h.get ⟨i, hi2⟩ = cft.dt_h) := by
  obtain ⟨hv, rfl⟩ := simulate_routine_ok_iff.1 h
  obtain ⟨hvt, rfl⟩ := simulate_transformative_ok_iff.1 ht
  have hdt : 0 < cfg.dt_s := ((validRoutine_iff p cfg).1 hv).2.1
  have hdtt : 0 < cft.dt_h := ((validTransformative_iff pt cft).1 hvt).2.1
  constructor
  · refine ⟨by simp only [routineRun, timeVec, List.length_map, List.length_range],
      by simp only [routineRun, timeVec, List.length_map, List.length_range],
      by simp only [routineRun, timeVec, List.length_map, List.length_range],
      by simp only [routineRun, timeVec, List.length_map, List.length_range],
      by simp only [routineRun, timeVec, List.length_map, List.length_range],
      by simp only [routineRun, timeVec, List.length_map, List.length_range],
      by simp only [routineRun, timeVec, List.length_map, List.length_range], ?_, ?_⟩
    · exact timeVec_chain cfg.dt_s hdt _
    · intro i hi hi2
      exact timeVec_spacing cfg.dt_s _ i hi hi2
  · refine ⟨by simp only [transRun, timeVec, List.length_map, List.length_range],
      by simp only [transRun, timeVec, List.length_map, List.length_range],
      by simp only [transRun, timeVec, List.length_map, List.length_range],
      by simp only [transRun, timeVec, List.length_map, List.length_range],
      by simp only [transRun, timeVec, List.length_map, List.length_range],
      by simp only [transRun, timeVec, List.length_map, List.length_range], ?_, ?_⟩
    · exact timeVec_chain cft.dt_h hdtt _
    · intro i hi hi2
      exact timeVec_spacing cft.dt_h _ i hi hi2

/-- Witness for C2 at concrete runs. -/
theorem shape_invariants_witness :
    ((routineRun pW cfgW).t_s.length = nSteps cfgW.duration_s cfgW.dt_s + 1 ∧
      (routineRun pW cfgW).E.length = (routineRun pW cfgW).t_s.length ∧
      (routineRun pW cfgW).C.length = (routineRun pW cfgW).t_s.length ∧
      (routineRun pW cfgW).Psi.length = (routineRun pW cfgW).t_s.length ∧
      (routineRun pW cfgW).H_e.length = (routineRun pW cfgW).t_s.length ∧
      (routineRun pW cfgW).H_c.length = (routineRun pW cfgW).t_s.length ∧
      (routineRun pW cfgW).M_r.length = (routineRun pW cfgW).t_s.length ∧
      List.Chain' (· < ·) (routineRun pW cfgW).t_s ∧
      ∀ i (hi : i + 1 < (routineRun pW cfgW).t_s.length)
        (hi2 : i < (routineRun pW cfgW).t_s.length),
        (routineRun pW cfgW).t_s.get ⟨i + 1, hi⟩ -
          (routineRun pW cfgW).t_s.get ⟨i, hi2⟩ = cfgW.dt_s) ∧
    ((transRun ptW cftW).t_h.length = nSteps cftW.duration_h cftW.dt_h + 1 ∧
      (transRun ptW cftW).D.length = (transRun ptW cftW).t_h.length ∧
      (transRun ptW cftW).E.length = (transRun ptW cftW).t_h.length ∧
      (transRun ptW cftW).C.length = (transRun ptW cftW).t_h.length ∧
      (transRun ptW cftW).H_e.length = (transRun ptW cftW).t_h.length ∧
      (transRun ptW cftW).M_t.length = (transRun ptW cftW).t_h.length ∧
      List.Chain' (· < ·) (transRun ptW cftW).t_h ∧
      ∀ i (hi : i + 1 < (transRun ptW cftW).t_h.length)
        (hi2 : i < (transRun ptW cftW).t_h.length),
        (transRun ptW cftW).t_h.get ⟨i + 1, hi⟩ -
          (transRun ptW cftW).t_h.get ⟨i, hi2⟩ = cftW.dt_h) :=
  shape_invariants pW cfgW ptW cftW (routineRun pW cfgW) (transRun ptW cftW)
    simW_routine_ok simW_trans_ok

/-! ### C3 — bounded quantities -/

/-- C3: at every step, Ψ and M_r lie in [0,1] in the routine result, and
M_t lies in [0,1] and is non-decreasing over the whole transformative
trajectory. -/
theorem bounded_quantities (p : RoutineParams) (cfg : RoutineConfig)
    (pt : TransformativeParams) (cft : TransformativeConfig)
    (r : RoutineResult) (rt : TransformativeResult)
    (h : simulate_routine p cfg = .ok r)
    (ht : simulate_transformative pt cft = .ok rt) :
    (∀ x ∈ r.Psi, 0 ≤ x ∧ x ≤ 1) ∧ (∀ x ∈ r.M_r, 0 ≤ x ∧ x ≤ 1) ∧
      (∀ x ∈ rt.M_t, 0 ≤ x ∧ x ≤ 1) ∧ List.Chain' (· ≤ ·) rt.M_t := by
  obtain ⟨hv, rfl⟩ := simulate_routine_ok_iff.1 h
  obtain ⟨hvt, rfl⟩ := simulate_transformative_ok_iff.1 ht
  obtain ⟨-, -, -, -, -, hpsi0, hpsi1, hS0, hS1, -⟩ := (validRoutine_iff p cfg).1 hv
  refine ⟨?_, ?_, ?_, ?_⟩
  · intro x hx
    simp only [routineRun, List.mem_map, List.mem_range] at hx
    obtain ⟨k, -, rfl⟩ := hx
    exact routinePsi_mem cfg hpsi0 hpsi1 hS0 hS1 k
  · intro x hx
    simp only [routineRun, List.mem_map, List.mem_range] at hx
    obtain ⟨k, -, rfl⟩ := hx
    exact ⟨(routineM_mem p cfg k).1, (routineM_mem p cfg k).2.le⟩
  · intro x hx
    simp only [transRun, List.mem_map, List.mem_range] at hx
    obtain ⟨k, -, rfl⟩ := hx
    exact ⟨(transM_mem pt cft k).1, (transM_mem pt cft k).2.le⟩
  · rw [List.chain'_iff_get]
    intro i hi
    simp only [transRun, List.get_eq_getElem, List.getElem_map, List.getElem_range]
    exact transM_step_mono pt cft i

/-- Witness for C3 at concrete runs. -/
theorem bounded_quantities_witness :
    (∀ x ∈ (routineRun pW cfgW).Psi, 0 ≤ x ∧ x ≤ 1) ∧
      (∀ x ∈ (routineRun pW cfgW).M_r, 0 ≤ x ∧ x ≤ 1) ∧
      (∀ x ∈ (transRun ptW cftW).M_t, 0 ≤ x ∧ x ≤ 1) ∧
      List.Chain' (· ≤ ·) (transRun ptW cftW).M_t :=
  bounded_quantities pW cfgW ptW cftW (routineRun pW cfgW) (transRun ptW cftW)
    simW_routine_ok simW_trans_ok

/-! ### C4 — totality: every entry is a finite, bounded rational -/

/-- The time grid extends no further than the configured duration. -/
theorem nSteps_mul_le {duration dt : ℚ} (hdt : 0 < dt) (hdur : 0 ≤ duration) :
    (nSteps duration dt : ℚ) * dt ≤ duration := by
  have hq : 0 ≤ duration / dt := div_nonneg hdur hdt.le
  have h0 : (0 : ℤ) ≤ ⌊duration / dt⌋ := Int.floor_nonneg.2 hq
  have hcast : ((nSteps duration dt : ℕ) : ℚ) = ((⌊duration / dt⌋ : ℤ) : ℚ) := by
    unfold nSteps
    exact_mod_cast congrArg (fun z : ℤ => (z : ℚ)) (Int.toNat_of_nonneg h0)
  rw [hcast]
  calc ((⌊duration / dt⌋ : ℤ) : ℚ) * dt ≤ (duration / dt) * dt :=
        mul_le_mul_of_nonneg_right (Int.floor_le _) hdt.le
    _ = duration := div_mul_cancel₀ _ hdt.ne'

/-- Entries of the time grid lie in [0, duration]. -/
theorem timeVec_mem_bounds {duration dt : ℚ} (hdt : 0 < dt) (hdur : 0 ≤ duration)
    (x : ℚ) (hx : x ∈ timeVec dt (nSteps duration dt)) :
    0 ≤ x ∧ x ≤ duration := by
  simp only [timeVec, List.mem_map, List.mem_range] at hx
  obtain ⟨k, hk, rfl⟩ := hx
  constructor
  · exact mul_nonneg (by positivity) hdt.le
  · have hkn : (k : ℚ) ≤ (nSteps duration dt : ℚ) := by
      exact_mod_cast Nat.lt_succ_iff.1 hk
    calc (Nat.cast k : ℚ) * dt ≤ (nSteps duration dt : ℚ) * dt :=
          mul_le_mul_of_nonneg_right hkn hdt.le
      _ ≤ duration := nSteps_mul_le hdt hdur

/-- C4: for every configuration passing validation, every entry of every
output vector of both simulators is a finite rational confined to an
explicit bounded interval (in particular nothing like a NaN or an
infinity can appear anywhere in a result). -/
theorem outputs_finite (p : RoutineParams) (cfg : RoutineConfig)
    (pt : TransformativeParams) (cft : TransformativeConfig)
    (r : RoutineResult) (rt : TransformativeResult)
    (h : simulate_routine p cfg = .ok r)
    (ht : simulate_transformative pt cft = .ok rt) :
    ((∀ x ∈ r.t_s, 0 ≤ x ∧ x ≤ cfg.duration_s) ∧
      (∀ x ∈ r.E, 0 ≤ x ∧ x ≤ 1) ∧ (∀ x ∈ r.C, 0 ≤ x ∧ x ≤ 1) ∧
      (∀ x ∈ r.Psi, 0 ≤ x ∧ x ≤ 1) ∧ (∀ x ∈ r.H_e, 0 ≤ x ∧ x ≤ 1) ∧
      (∀ x ∈ r.H_c, 0 ≤ x ∧ x ≤ 1) ∧ (∀ x ∈ r.M_r, 0 ≤ x ∧ x ≤ 1)) ∧
    ((∀ x ∈ rt.t_h, 0 ≤ x ∧ x ≤ cft.duration_h) ∧
      (∀ x ∈ rt.D, 0 ≤ x ∧ x ≤ 1) ∧ (∀ x ∈ rt.E, 0 ≤ x ∧ x ≤ 1) ∧
      (∀ x ∈ rt.C, 0 ≤ x ∧ x ≤ 1) ∧ (∀ x ∈ rt.H_e, -1 ≤ x ∧ x ≤ 1) ∧
      (∀ x ∈ rt.M_t, 0 ≤ x ∧ x ≤ 1) ∧ (∀ x ∈ rt.t_peak_h, x = cft.t_peak_h)) := by
  obtain ⟨hv, rfl⟩ := simulate_routine_ok_iff.1 h
  obtain ⟨hvt, rfl⟩ := simulate_transformative_ok_iff.1 ht
  obtain ⟨hdur, hdt, -, -, -, hpsi0, hpsi1, hS0, hS1, -⟩ :=
    (validRoutine_iff p cfg).1 hv
  obtain ⟨hdurt, hdtt, -, -, -, -, -⟩ := (validTransformative_iff pt cft).1 hvt
  constructor
  · refine ⟨?_, ?_, ?_, ?_, ?_, ?_, ?_⟩
    · intro x hx
      exact timeVec_mem_bounds hdt hdur.le x hx
    · intro x hx
      simp only [routineRun, List.mem_map, List.mem_range] at hx
      obtain ⟨k, -, rfl⟩ := hx
      exact routineE_mem cfg k
    · intro x hx
      simp only [routineRun, List.mem_map, List.mem_range] at hx
      obtain ⟨k, -, rfl⟩ := hx
      exact routineC_mem cfg k
    · intro x hx
      simp only [routineRun, List.mem_map, List.mem_range] at hx
      obtain ⟨k, -, rfl⟩ := hx
      exact routinePsi_mem cfg hpsi0 hpsi1 hS0 hS1 k
    · intro x hx
      simp only [routineRun, List.mem_map, List.mem_range] at hx
      obtain ⟨k, -, rfl⟩ := hx
      exact routineHe_mem p cfg k
    · intro x hx
      simp only [routineRun, List.mem_map, List.mem_range] at hx
      obtain ⟨k, -, rfl⟩ := hx
      exact routineHc_mem p cfg k
    · intro x hx
      simp only [routineRun, List.mem_map, List.mem_range] at hx
      obtain ⟨k, -, rfl⟩ := hx
      exact ⟨(routineM_mem p cfg k).1, (routineM_mem p cfg k).2.le⟩
  · refine ⟨?_, ?_, ?_, ?_, ?_, ?_, ?_⟩
    · intro x hx
      exact timeVec_mem_bounds hdtt hdurt.le x hx
    · intro x hx
      simp only [transRun, List.mem_map, List.mem_range] at hx
      obtain ⟨k, -, rfl⟩ := hx
      exact transD_mem cft k
    · intro x hx
      simp only [transRun, List.mem_map, List.mem_range] at hx
      obtain ⟨k, -, rfl⟩ := hx
      exact transE_mem cft k
    · intro x hx
      simp only [transRun, List.mem_map, List.mem_range] at hx
      obtain ⟨k, -, rfl⟩ := hx
      exact transC_mem cft k
    · intro x hx
      simp only [transRun, List.mem_map, List.mem_range] at hx
      obtain ⟨k, -, rfl⟩ := hx
      exact transHe_mem pt cft k
    · intro x hx
      simp only [transRun, List.mem_map, List.mem_range] at hx
      obtain ⟨k, -, rfl⟩ := hx
      exact ⟨(transM_mem pt cft k).1, (transM_mem pt cft k).2.le⟩
    · intro x hx
      simp only [transRun, List.mem_singleton] at hx
      exact hx

/-- Witness for C4 at concrete runs (stated for the two meaning vectors
and the two time vectors; the theorem is applied at the concrete
configurations, discharging all hypotheses). -/
theorem outputs_finite_witness :
    (∀ x ∈ (routineRun pW cfgW).t_s, 0 ≤ x ∧ x ≤ cfgW.duration_s) ∧
      (∀ x ∈ (routineRun pW cfgW).M_r, 0 ≤ x ∧ x ≤ 1) ∧
      (∀ x ∈ (transRun ptW cftW).H_e, -1 ≤ x ∧ x ≤ 1) :=
  ⟨(outputs_finite pW cfgW ptW cftW (routineRun pW cfgW) (transRun ptW cftW)
      simW_routine_ok simW_trans_ok).1.1,
   (outputs_finite pW cfgW ptW cftW (routineRun pW cfgW) (transRun ptW cftW)
      simW_routine_ok simW_trans_ok).1.2.2.2.2.2.2,
   (outputs_finite pW cfgW ptW cftW (routineRun pW cfgW) (transRun ptW cftW)
      simW_routine_ok simW_trans_ok).2.2.2.2.2.1⟩

/-! ### C5 — threshold search correctness -/

/-- If the first sample already meets the threshold, the search returns
the first time. -/
theorem ttt_head (th t0 y0 : ℚ) (t2 y2 : List ℚ)
    (hlen : t2.length = y2.length) (hy0 : th ≤ y0) :
    time_to_threshold (t0 :: t2) (y0 :: y2) th = some t0 := by
  cases t2 with
  | nil =>
    cases y2 with
    | nil => simp [time_to_threshold, hy0]
    | cons b bs => simp at hlen
  | cons a as =>
    cases y2 with
    | nil => simp at hlen
    | cons b bs => simp [time_to_threshold, hy0]

/-- When the first sample is below the threshold, any returned crossing
time lies strictly after the first time point. -/
theorem ttt_pos_of_head_lt (th : ℚ) :
    ∀ (t2 : List ℚ) (t0 y0 : ℚ) (y2 : List ℚ) (τ : ℚ),
      List.Chain' (· < ·) (t0 :: t2) → y0 < th →
      time_to_threshold (t0 :: t2) (y0 :: y2) th = some τ → t0 < τ
  | [], t0, y0, y2, τ, _, hy0, hτ => by
      cases y2 with
      | nil => simp [time_to_threshold, not_le.2 hy0] at hτ
      | cons b bs => simp [time_to_threshold] at hτ
  | t1 :: ts, t0, y0, y2, τ, hch, hy0, hτ => by
      cases y2 with
      | nil => simp [time_to_threshold] at hτ
      | cons y1 ys =>
        have h01 : t0 < t1 := (List.chain'_cons.1 hch).1
        by_cases h1 : th ≤ y1
        · simp only [time_to_threshold, if_neg (not_le.2 hy0), if_pos h1,
            Option.some.injEq] at hτ
          have hnum : 0 < th - y0 := by linarith
          have hden : 0 < y1 - y0 := by linarith
          have : 0 < (th - y0) * (t1 - t0) / (y1 - y0) :=
            div_pos (mul_pos hnum (by linarith)) hden
          linarith [this]
        · simp only [time_to_threshold, if_neg (not_le.2 hy0), if_neg h1] at hτ
          have := ttt_pos_of_head_lt th ts t1 y1 ys τ
            ((List.chain'_cons.1 hch).2) (not_le.1 h1) hτ
          linarith

/-- The crossing-interval case of the threshold search: with the series
below the threshold up to the bracketing pair and strictly above at the
end of it, the search interpolates strictly inside the bracketing time
interval. -/
theorem ttt_cross (th ta tb ya yb : ℚ) :
    ∀ (pre preY post postY : List ℚ),
      pre.length = preY.length →
      List.Chain' (· < ·) (pre ++ ta :: tb :: post) →
      (∀ v ∈ preY, v < th) → ya < th → th < yb →
      ∃ τ, time_to_threshold (pre ++ ta :: tb :: post)
          (preY ++ ya :: yb :: postY) th = some τ ∧ ta < τ ∧ τ < tb
  | [], [], post, postY, _, hch, _, hya, hyb => by
      have hab : ta < tb := (List.chain'_cons.1 hch).1
      have hya' : ¬ th ≤ ya := not_le.2 hya
      refine ⟨ta + (th - ya) * (tb - ta) / (yb - ya), ?_, ?_, ?_⟩
      · simp [time_to_threshold, hya', hyb.le]
      · have hnum : 0 < th - ya := by linarith
        have hden : 0 < yb - ya := by linarith
        have : 0 < (th - ya) * (tb - ta) / (yb - ya) :=
          div_pos (mul_pos hnum (by linarith)) hden
        linarith
      · have hden : 0 < yb - ya := by linarith
        have hfrac : (th - ya) * (tb - ta) / (yb - ya) < tb - ta := by
          rw [div_lt_iff₀ hden]
          nlinarith
        linarith
  | [], b :: bs, _, _, hlen, _, _, _, _ => by simp at hlen
  | a :: as, [], _, _, hlen, _, _, _, _ => by simp at hlen
  | a :: as, b :: bs, post, postY, hlen, hch, hpre, hya, hyb => by
      have hlen2 : as.length = bs.length := by simpa using hlen
      have hch2 : List.Chain' (· < ·) (as ++ ta :: tb :: post) := hch.tail
      have hpre2 : ∀ v ∈ bs, v < th := fun v hv => hpre v (List.mem_cons_of_mem b hv)
      obtain ⟨τ, hττ, h1, h2⟩ :=
        ttt_cross th ta tb ya yb as bs post postY hlen2 hch2 hpre2 hya hyb
      have hb : ¬ th ≤ b := not_le.2 (hpre b (by simp))
      cases as with
      | nil =>
        cases bs with
        | nil =>
          refine ⟨τ, ?_, h1, h2⟩
          have hya' : ¬ th ≤ ya := not_le.2 hya
          simp only [List.nil_append, List.cons_append, time_to_threshold,
            if_neg hb, if_neg hya'] at hττ ⊢
          simpa using hττ
        | cons d ds => simp at hlen2
      | cons c cs =>
        cases bs with
        | nil => simp at hlen2
        | cons d ds =>
          have hd : ¬ th ≤ d := not_le.2 (hpre2 d (by simp))
          refine ⟨τ, ?_, h1, h2⟩
          simp only [List.cons_append, time_to_threshold, if_neg hb,
            if_neg hd] at hττ ⊢
          simpa using hττ

/-- If the series never reaches the threshold, the search returns the
sentinel. -/
theorem ttt_none (th : ℚ) :
    ∀ (t y : List ℚ), t.length = y.length → (∀ v ∈ y, v < th) →
      time_to_threshold t y th = none
  | [], [], _, _ => by simp [time_to_threshold]
  | [], b :: bs, hlen, _ => by simp at hlen
  | a :: as, [], hlen, _ => by simp at hlen
  | [a], [b], _, hy => by
      simp [time_to_threshold, not_le.2 (hy b (by simp))]
  | a :: c :: cs, b :: d :: ds, hlen, hy => by
      have hb : ¬ th ≤ b := not_le.2 (hy b (by simp))
      have hd : ¬ th ≤ d := not_le.2 (hy d (by simp))
      have := ttt_none th (c :: cs) (d :: ds) (by simpa using hlen)
        (fun v hv => hy v (List.mem_cons_of_mem b hv))
      simp only [time_to_threshold, if_neg hb, if_neg hd]
      exact this

/-- C5: for a monotonic time vector and an equal-length series, the
threshold search returns the first time if the series already starts at
or above the threshold; for a monotonically increasing series crossing
the threshold strictly between two adjacent indices it returns a time
strictly inside the bracketing time interval; and when the series never
reaches the threshold it returns the documented sentinel (`none`), never
failing. -/
theorem time_to_threshold_correct (t y : List ℚ) (th : ℚ)
    (hlen : t.length = y.length) (ht : List.Chain' (· < ·) t) :
    (∀ (t0 : ℚ) (t2 : List ℚ) (y0 : ℚ) (y2 : List ℚ),
        t = t0 :: t2 → y = y0 :: y2 → th ≤ y0 →
        time_to_threshold t y th = some t0) ∧
    (∀ (pre preY post postY : List ℚ) (ta tb ya yb : ℚ),
        t = pre ++ ta :: tb :: post → y = preY ++ ya :: yb :: postY →
        pre.length = preY.length → y.Pairwise (· ≤ ·) →
        ya < th → th < yb →
        ∃ τ, time_to_threshold t y th = some τ ∧ ta < τ ∧ τ < tb) ∧
    ((∀ v ∈ y, v < th) → time_to_threshold t y th = none) := by
  refine ⟨?_, ?_, ?_⟩
  · intro t0 t2 y0 y2 htt hyy hy0
    subst htt; subst hyy
    exact ttt_head th t0 y0 t2 y2 (by simpa using hlen) hy0
  · intro pre preY post postY ta tb ya yb htt hyy hplen hmono hya hyb
    subst htt; subst hyy
    have hpre : ∀ v ∈ preY, v < th := by
      intro v hv
      have : v ≤ ya := by
        have h := (List.pairwise_append.1 hmono).2.2 v hv ya (by simp)
        exact h
      linarith
    exact ttt_cross th ta tb ya yb pre preY post postY hplen ht hpre hya hyb
  · intro hy
    exact ttt_none th t y hlen hy

/-- Witness for C5: the three cases exercised at concrete inputs — a
series starting at the threshold, a series crossing between the two grid
points of [0,1], and a series that never reaches the threshold. -/
theorem time_to_threshold_correct_witness :
    time_to_threshold [0, 1] [1, 2] (1/2) = some 0 ∧
      (∃ τ, time_to_threshold [0, 1] [0, 1] (1/2) = some τ ∧ 0 < τ ∧ τ < 1) ∧
      time_to_threshold [0, 1] [0, 1/4] 1 = none :=
  ⟨(time_to_threshold_correct [0, 1] [1, 2] (1/2) (by norm_num)
      (by norm_num)).1 0 [1] 1 [2] rfl rfl (by norm_num),
   (time_to_threshold_correct [0, 1] [0, 1] (1/2) (by norm_num)
      (by norm_num)).2.1 [] [] [] [] 0 1 0 1 rfl rfl rfl (by norm_num)
      (by norm_num) (by norm_num),
   (time_to_threshold_correct [0, 1] [0, 1/4] 1 (by norm_num)
      (by norm_num)).2.2 (by norm_num)⟩

/-! ### C6 — interpolation correctness -/

/-- Looking up a grid point returns exactly the stored sample. -/
theorem interp1_self : ∀ (t y : List ℚ), List.Pairwise (· < ·) t →
    t.length = y.length →
    ∀ (i : ℕ) (hi : i < t.length) (hiy : i < y.length),
      interp1 t y (t.get ⟨i, hi⟩) = .ok (y.get ⟨i, hiy⟩)
  | [], _, _, _, i, hi, _ => absurd hi (by simp)
  | [t0], [y0], _, _, 0, _, _ => by simp [interp1]
  | [t0], [y0], _, _, i + 1, hi, _ => by simp at hi
  | [t0], [], _, hlen, _, _, hiy => absurd hiy (by simp)
  | [t0], y0 :: y1 :: ys, _, hlen, _, _, _ => by simp at hlen
  | t0 :: t1 :: ts, [], _, hlen, _, _, _ => by simp at hlen
  | t0 :: t1 :: ts, [y0], _, hlen, _, _, _ => by simp at hlen
  | t0 :: t1 :: ts, y0 :: y1 :: ys, hp, hlen, 0, _, _ => by
      have h01 : t0 < t1 := (List.pairwise_cons.1 hp).1 t1 (by simp)
      simp [interp1, not_lt.2 le_rfl, h01.le]
  | t0 :: t1 :: ts, y0 :: y1 :: ys, hp, hlen, 1, _, _ => by
      have h01 : t0 < t1 := (List.pairwise_cons.1 hp).1 t1 (by simp)
      simp only [List.get_eq_getElem, List.getElem_cons_succ, List.getElem_cons_zero,
        interp1, if_neg (not_lt.2 h01.le), if_pos le_rfl]
      rw [mul_div_cancel_left₀ _ (sub_ne_zero.2 h01.ne')]
      congr 1
      ring
  | t0 :: t1 :: ts, y0 :: y1 :: ys, hp, hlen, i + 2, hi, hiy => by
      have h01 : t0 < t1 := (List.pairwise_cons.1 hp).1 t1 (by simp)
      have hi2 : i + 1 < (t1 :: ts).length := by simpa using hi
      have hiy2 : i + 1 < (y1 :: ys).length := by simpa using hiy
      have hmem : (t1 :: ts).get ⟨i + 1, hi2⟩ ∈ ts := by
        simp only [List.get_eq_getElem, List.getElem_cons_succ]
        exact List.getElem_mem _
      have hq1 : t1 < (t1 :: ts).get ⟨i + 1, hi2⟩ :=
        (List.pairwise_cons.1 hp.of_cons).1 _ hmem
      have hq0 : t0 < (t1 :: ts).get ⟨i + 1, hi2⟩ := h01.trans hq1
      have hrec := interp1_self (t1 :: ts) (y1 :: ys) hp.of_cons
        (by simpa using hlen) (i + 1) hi2 hiy2
      simp only [List.get_eq_getElem, List.getElem_cons_succ] at hrec hq0 hq1 ⊢
      simp only [interp1]
      rw [if_neg (not_lt.2 hq0.le), if_neg (not_le.2 hq1)]
      exact hrec

/-- A query list whose entries all succeed pointwise succeeds as a whole,
preserving length and order. -/
theorem sample_get_ok (t y : List ℚ) :
    ∀ (qs rs : List ℚ), qs.length = rs.length →
      (∀ (i : ℕ) (h : i < qs.length) (h2 : i < rs.length),
        interp1 t y (qs.get ⟨i, h⟩) = .ok (rs.get ⟨i, h2⟩)) →
      sample_at_times t y qs = .ok rs
  | [], [], _, _ => by simp [sample_at_times]
  | [], r :: rs, hlen, _ => by simp at hlen
  | q :: qs, [], hlen, _ => by simp at hlen
  | q :: qs, r :: rs, hlen, hf => by
      have h0 : interp1 t y q = .ok r := by simpa using hf 0 (by simp) (by simp)
      have ih := sample_get_ok t y qs rs (by simpa using hlen)
        (fun i h h2 => by simpa using hf (i + 1) (by simpa using h) (by simpa using h2))
      simp [sample_at_times, h0, ih]

/-- The midpoint of two adjacent grid points interpolates to the mean of
the two adjacent samples. -/
theorem interp1_mid (ta tb ya yb : ℚ) :
    ∀ (pre preY post postY : List ℚ),
      pre.length = preY.length →
      List.Pairwise (· < ·) (pre ++ ta :: tb :: post) →
      interp1 (pre ++ ta :: tb :: post) (preY ++ ya :: yb :: postY)
        ((ta + tb) / 2) = .ok ((ya + yb) / 2)
  | [], [], post, postY, _, hp => by
      have hab : ta < tb := (List.pairwise_cons.1 hp).1 tb (by simp)
      have h1 : ¬ (ta + tb) / 2 < ta := by push_neg; linarith
      have h2 : (ta + tb) / 2 ≤ tb := by linarith
      have hne : tb - ta ≠ 0 := sub_ne_zero.2 hab.ne'
      simp only [List.nil_append, interp1, if_neg h1, if_pos h2]
      congr 1
      field_simp
      ring
  | [], b :: bs, _, _, hlen, _ => by simp at hlen
  | a :: as, [], _, _, hlen, _ => by simp at hlen
  | a :: as, b :: bs, post, postY, hlen, hp => by
      have hab : ta < tb := by
        have hpr : List.Pairwise (· < ·) (ta :: tb :: post) :=
          ((List.pairwise_append.1 hp.of_cons).2.1)
        exact (List.pairwise_cons.1 hpr).1 tb (by simp)
      have haq : a < (ta + tb) / 2 := by
        have : a < ta := (List.pairwise_cons.1 hp).1 ta
          (by simp [List.mem_append])
        linarith
      have ih := interp1_mid ta tb ya yb as bs post postY
        (by simpa using hlen) hp.of_cons
      cases as with
      | nil =>
        cases bs with
        | nil =>
          have h2 : ¬ (ta + tb) / 2 ≤ ta := by push_neg; linarith
          simp only [List.nil_append] at ih
          simp only [List.cons_append, List.nil_append, interp1,
            if_neg (not_lt.2 haq.le), if_neg h2]
          exact ih
        | cons d ds => simp at hlen
      | cons c cs =>
        cases bs with
        | nil => simp at hlen
        | cons d ds =>
          have hcta : c < ta := by
            have hpr := hp.of_cons
            exact (List.pairwise_append.1 hpr).2.2 c (by simp) ta (by simp)
          have h2 : ¬ (ta + tb) / 2 ≤ c := by push_neg; linarith
          simp only [List.cons_append] at ih ⊢
          simp only [interp1, if_neg (not_lt.2 haq.le), if_neg h2]
          exact ih

/-- C6: querying `sample_at_times` at the original grid returns the series
unchanged (identity law), and querying the midpoint between two adjacent
samples returns their arithmetic mean (the interpolant is linear on each
segment, so this holds whenever y is linear between the two samples). -/
theorem sample_at_times_interpolation (t y : List ℚ)
    (hlen : t.length = y.length) (hp : List.Pairwise (· < ·) t) :
    sample_at_times t y t = .ok y ∧
    (∀ (pre preY post postY : List ℚ) (ta tb ya yb : ℚ),
        t = pre ++ ta :: tb :: post → y = preY ++ ya :: yb :: postY →
        pre.length = preY.length →
        sample_at_times t y [(ta + tb) / 2] = .ok [(ya + yb) / 2]) := by
  constructor
  · exact sample_get_ok t y t y hlen
      (fun i h h2 => interp1_self t y hp hlen i h h2)
  · intro pre preY post postY ta tb ya yb htt hyy hplen
    subst htt; subst hyy
    have := interp1_mid ta tb ya yb pre preY post postY hplen hp
    simp [sample_at_times, this]

/-- Witness for C6 on the grid t = [0,1], y = [3,5]: identity and the
midpoint query 1/2 returning the mean 4. -/
theorem sample_at_times_interpolation_witness :
    sample_at_times [0, 1] [3, 5] [0, 1] = .ok [3, 5] ∧
      sample_at_times [0, 1] [3, 5] [(0 + 1) / 2] = .ok [(3 + 5) / 2] :=
  ⟨(sample_at_times_interpolation [0, 1] [3, 5] (by norm_num) (by norm_num)).1,
   (sample_at_times_interpolation [0, 1] [3, 5] (by norm_num) (by norm_num)).2
      [] [] [] [] 0 1 3 5 rfl rfl rfl⟩

/-! ### C7 — sampling domain contract -/

/-- Every single-point lookup either succeeds or fails with `RangeError`
(no other error is possible). -/
theorem interp1_ok_or_range :
    ∀ (t y : List ℚ) (q : ℚ),
      (∃ v, interp1 t y q = .ok v) ∨ interp1 t y q = .error .rangeError
  | [], y, q => by
      right
      cases y <;> simp [interp1]
  | [t0], [], q => by right; simp [interp1]
  | [t0], [y0], q => by
      by_cases h : q = t0
      · exact Or.inl ⟨y0, by simp [interp1, h]⟩
      · exact Or.inr (by simp [interp1, h])
  | [t0], y0 :: y1 :: ys, q => by right; simp [interp1]
  | t0 :: t1 :: ts, [], q => by right; simp [interp1]
  | t0 :: t1 :: ts, [y0], q => by right; simp [interp1]
  | t0 :: t1 :: ts, y0 :: y1 :: ys, q => by
      by_cases h1 : q < t0
      · exact Or.inr (by simp [interp1, h1])
      by_cases h2 : q ≤ t1
      · exact Or.inl ⟨y0 + (q - t0) * (y1 - y0) / (t1 - t0),
          by simp [interp1, h1, h2]⟩
      · have := interp1_ok_or_range (t1 :: ts) (y1 :: ys) q
        rcases this with ⟨v, hv⟩ | hv
        · exact Or.inl ⟨v, by simp [interp1, h1, h2, hv]⟩
        · exact Or.inr (by simp [interp1, h1, h2, hv])

/-- A query before the first grid point fails with `RangeError`. -/
theorem interp1_lt_head :
    ∀ (t0 : ℚ) (t2 y : List ℚ) (q : ℚ), q < t0 →
      interp1 (t0 :: t2) y q = .error .rangeError
  | t0, [], [], q, hq => by simp [interp1]
  | t0, [], [y0], q, hq => by simp [interp1, hq.ne]
  | t0, [], y0 :: y1 :: ys, q, hq => by simp [interp1]
  | t0, t1 :: ts, [], q, hq => by simp [interp1]
  | t0, t1 :: ts, [y0], q, hq => by simp [interp1]
  | t0, t1 :: ts, y0 :: y1 :: ys, q, hq => by simp [interp1, hq]

/-- In a strictly sorted list every element is at most the last one. -/
theorem sorted_le_getLast :
    ∀ (l : List ℚ) (hne : l ≠ []), List.Pairwise (· < ·) l →
      ∀ v ∈ l, v ≤ l.getLast hne
  | [], hne, _, _, _ => absurd rfl hne
  | [a], _, _, v, hv => by
      simp only [List.mem_singleton] at hv
      simp [hv]
  | a :: b :: l, hne, hp, v, hv => by
      have hlast : (a :: b :: l).getLast hne = (b :: l).getLast (by simp) :=
        List.getLast_cons (by simp)
      rcases List.mem_cons.1 hv with rfl | hv2
      · have hmem : (b :: l).getLast (by simp) ∈ b :: l := List.getLast_mem _
        have := (List.pairwise_cons.1 hp).1 _ hmem
        rw [hlast]
        exact this.le
      · rw [hlast]
        exact sorted_le_getLast (b :: l) (by simp) hp.of_cons v hv2

/-- A query after the last grid point fails with `RangeError`. -/
theorem interp1_gt_last :
    ∀ (t y : List ℚ) (q : ℚ) (hne : t ≠ []), List.Pairwise (· < ·) t →
      t.getLast hne < q → interp1 t y q = .error .rangeError
  | [], _, _, hne, _, _ => absurd rfl hne
  | [t0], [], q, _, _, _ => by simp [interp1]
  | [t0], [y0], q, _, _, hq => by
      have : (t0 : ℚ) < q := by simpa using hq
      simp [interp1, this.ne']
  | [t0], y0 :: y1 :: ys, q, _, _, _ => by simp [interp1]
  | t0 :: t1 :: ts, [], q, _, _, _ => by simp [interp1]
  | t0 :: t1 :: ts, [y0], q, _, _, _ => by simp [interp1]
  | t0 :: t1 :: ts, y0 :: y1 :: ys, q, hne, hp, hq => by
      have hlast : (t0 :: t1 :: ts).getLast hne = (t1 :: ts).getLast (by simp) :=
        List.getLast_cons (by simp)
      rw [hlast] at hq
      have ht1 : t1 ≤ (t1 :: ts).getLast (by simp) :=
        sorted_le_getLast (t1 :: ts) (by simp) hp.of_cons t1 (by simp)
      have hq1 : t1 < q := lt_of_le_of_lt ht1 hq
      have hq0 : t0 < q := ((List.pairwise_cons.1 hp).1 t1 (by simp)).trans hq1
      have ih := interp1_gt_last (t1 :: ts) (y1 :: ys) q (by simp) hp.of_cons hq
      simp only [interp1]
      rw [if_neg (not_lt.2 hq0.le), if_neg (not_le.2 hq1)]
      exact ih

/-- A query inside the grid's domain always succeeds. -/
theorem interp1_total :
    ∀ (t y : List ℚ) (q : ℚ) (hne : t ≠ []), List.Pairwise (· < ·) t →
      t.length = y.length → t.head hne ≤ q → q ≤ t.getLast hne →
      ∃ v, interp1 t y q = .ok v
  | [], _, _, hne, _, _, _, _ => absurd rfl hne
  | [t0], [], q, _, _, hlen, _, _ => by simp at hlen
  | [t0], [y0], q, _, _, _, hlo, hhi => by
      have h1 : t0 ≤ q := by simpa using hlo
      have h2 : q ≤ t0 := by simpa using hhi
      exact ⟨y0, by simp [interp1, le_antisymm h2 h1]⟩
  | [t0], y0 :: y1 :: ys, q, _, _, hlen, _, _ => by simp at hlen
  | t0 :: t1 :: ts, [], q, _, _, hlen, _, _ => by simp at hlen
  | t0 :: t1 :: ts, [y0], q, _, _, hlen, _, _ => by simp at hlen
  | t0 :: t1 :: ts, y0 :: y1 :: ys, q, hne, hp, hlen, hlo, hhi => by
      have hlo0 : t0 ≤ q := by simpa using hlo
      by_cases h2 : q ≤ t1
      · exact ⟨y0 + (q - t0) * (y1 - y0) / (t1 - t0),
          by simp [interp1, not_lt.2 hlo0, h2]⟩
      · have hlast : (t0 :: t1 :: ts).getLast hne = (t1 :: ts).getLast (by simp) :=
          List.getLast_cons (by simp)
        rw [hlast] at hhi
        obtain ⟨v, hv⟩ := interp1_total (t1 :: ts) (y1 :: ys) q (by simp)
          hp.of_cons (by simpa using hlen) (by simpa using (not_le.1 h2).le) hhi
        refine ⟨v, ?_⟩
        simp only [interp1]
        rw [if_neg (not_lt.2 hlo0), if_neg h2]
        exact hv

/-- A query list whose entries all succeed pointwise samples to a list of
the same length and order. -/
theorem sample_ok_all (t y : List ℚ) :
    ∀ qs : List ℚ, (∀ q ∈ qs, ∃ v, interp1 t y q = .ok v) →
      ∃ rs, sample_at_times t y qs = .ok rs ∧ rs.length = qs.length ∧
        ∀ (i : ℕ) (hi : i < qs.length) (hi2 : i < rs.length),
          interp1 t y (qs.get ⟨i, hi⟩) = .ok (rs.get ⟨i, hi2⟩)
  | [] => fun _ =>
      ⟨[], by simp [sample_at_times], rfl, fun i hi _ => absurd hi (by simp)⟩
  | q :: qs => fun hall => by
      obtain ⟨v, hv⟩ := hall q (by simp)
      obtain ⟨rs, h1, h2, h3⟩ := sample_ok_all t y qs
        (fun r hr => hall r (by simp [hr]))
      refine ⟨v :: rs, by simp [sample_at_times, hv, h1], by simp [h2], ?_⟩
      intro i hi hi2
      cases i with
      | zero => simpa using hv
      | succ j => simpa using h3 j (by simpa using hi) (by simpa using hi2)

/-- If some query fails with `RangeError` (and no other failure mode
exists), the whole sampling call fails with `RangeError`. -/
theorem sample_error_of_mem (t y : List ℚ) :
    ∀ qs : List ℚ,
      (∀ q ∈ qs, (∃ v, interp1 t y q = .ok v) ∨
        interp1 t y q = .error .rangeError) →
      (∃ q ∈ qs, interp1 t y q = .error .rangeError) →
      sample_at_times t y qs = .error .rangeError
  | [], _, hex => by simp at hex
  | q :: qs, hall, hex => by
      rcases hall q (by simp) with ⟨v, hv⟩ | hv
      · obtain ⟨w, hw, hwe⟩ := hex
        rcases List.mem_cons.1 hw with rfl | hw2
        · rw [hv] at hwe
          exact absurd hwe (by simp)
        · have ih := sample_error_of_mem t y qs
            (fun r hr => hall r (by simp [hr])) ⟨w, hw2, hwe⟩
          simp [sample_at_times, hv, ih]
      · simp [sample_at_times, hv]

/-- C7: for a monotonic grid and an equal-length series, `sample_at_times`
fails with `RangeError` whenever some query time lies outside
[t[0], t[-1]], and for in-range queries returns a vector of the same
length and order as the query times. -/
theorem sample_at_times_range (t y qs : List ℚ)
    (hlen : t.length = y.length) (hp : List.Pairwise (· < ·) t)
    (hne : t ≠ []) :
    ((∃ q ∈ qs, q < t.head hne ∨ t.getLast hne < q) →
        sample_at_times t y qs = .error .rangeError) ∧
    ((∀ q ∈ qs, t.head hne ≤ q ∧ q ≤ t.getLast hne) →
        ∃ rs, sample_at_times t y qs = .ok rs ∧ rs.length = qs.length ∧
          ∀ (i : ℕ) (hi : i < qs.length) (hi2 : i < rs.length),
            interp1 t y (qs.get ⟨i, hi⟩) = .ok (rs.get ⟨i, hi2⟩)) := by
  constructor
  · intro hex
    obtain ⟨q, hq, hout⟩ := hex
    refine sample_error_of_mem t y qs
      (fun r _ => interp1_ok_or_range t y r) ⟨q, hq, ?_⟩
    rcases hout with hlt | hgt
    · obtain ⟨t0, t2, rfl⟩ : ∃ t0 t2, t = t0 :: t2 := by
        cases t with
        | nil => exact absurd rfl hne
        | cons a l => exact ⟨a, l, rfl⟩
      exact interp1_lt_head t0 t2 y q (by simpa using hlt)
    · exact interp1_gt_last t y q hne hp hgt
  · intro hin
    exact sample_ok_all t y qs
      (fun q hq => interp1_total t y q hne hp hlen (hin q hq).1 (hin q hq).2)

/-- Witness for C7 on the grid t = [0,1], y = [3,5]: the out-of-range
query 2 fails with `RangeError`, and the in-range queries [0, 1/2]
succeed with a vector of the same length. -/
theorem sample_at_times_range_witness :
    sample_at_times [0, 1] [3, 5] [2] = .error .rangeError ∧
      ∃ rs, sample_at_times [0, 1] [3, 5] [0, 1/2] = .ok rs ∧
        rs.length = 2 ∧
        ∀ (i : ℕ) (hi : i < ([0, 1/2] : List ℚ).length) (hi2 : i < rs.length),
          interp1 [0, 1] [3, 5] (([0, 1/2] : List ℚ).get ⟨i, hi⟩) =
            .ok (rs.get ⟨i, hi2⟩) :=
  ⟨(sample_at_times_range [0, 1] [3, 5] [2] (by norm_num) (by norm_num)
      (by simp)).1 ⟨2, by norm_num, by norm_num⟩,
   (sample_at_times_range [0, 1] [3, 5] [0, 1/2] (by norm_num) (by norm_num)
      (by simp)).2 (by norm_num)⟩

/-! ### C8 — sensitivity of the meaning threshold time to alpha_E -/

/-- Entries of a mapped step-index grid. -/
theorem rangeMap_get (f : ℕ → ℚ) (n i : ℕ)
    (hi : i < ((List.range (n + 1)).map f).length) :
    ((List.range (n + 1)).map f).get ⟨i, hi⟩ = f i := by
  simp only [List.get_eq_getElem, List.getElem_map, List.getElem_range]

/-- Raising `alpha_E` (all else fixed) never lowers the meaning value at
any step. -/
theorem routineM_le_of_alpha (p1 p2 : RoutineParams) (cfg : RoutineConfig)
    (hle : p1.alpha_E ≤ p2.alpha_E)
    (hdt : 0 ≤ cfg.dt_s) (hψ0 : 0 ≤ cfg.psi0) (hψ1 : cfg.psi0 ≤ 1)
    (hS0 : 0 ≤ cfg.S_group) (hS1 : cfg.S_group ≤ 1) :
    ∀ k, routineM p1 cfg k ≤ routineM p2 cfg k
  | 0 => by simp [routineM]
  | k + 1 => by
      have ih := routineM_le_of_alpha p1 p2 cfg hle hdt hψ0 hψ1 hS0 hS1 k
      have hc : 0 ≤ routineE cfg k * (routinePsi cfg k * cfg.dt_s) :=
        mul_nonneg (routineE_mem cfg k).1
          (mul_nonneg (routinePsi_mem cfg hψ0 hψ1 hS0 hS1 k).1 hdt)
      have hu : rate01 (p1.alpha_E * (routineE cfg k * (routinePsi cfg k * cfg.dt_s))) ≤
          rate01 (p2.alpha_E * (routineE cfg k * (routinePsi cfg k * cfg.dt_s))) :=
        rate01_mono (mul_le_mul_of_nonneg_right hle hc)
      have hu2lt := rate01_lt_one
        (p2.alpha_E * (routineE cfg k * (routinePsi cfg k * cfg.dt_s)))
      have hM1 := routineM_mem p1 cfg k
      have hM2 := routineM_mem p2 cfg k
      simp only [routineM]
      nlinarith [mul_nonneg (sub_nonneg.2 hu2lt.le) (sub_nonneg.2 ih),
        mul_nonneg (sub_nonneg.2 hu) (sub_nonneg.2 hM1.2.le)]

/-- Strictly raising `alpha_E` (all else fixed) strictly raises the
meaning value at every step where the lower run has already started to
accumulate meaning. -/
theorem routineM_lt_of_alpha (p1 p2 : RoutineParams) (cfg : RoutineConfig)
    (hlt : p1.alpha_E < p2.alpha_E) (h0 : 0 ≤ p1.alpha_E)
    (hdt : 0 ≤ cfg.dt_s) (hψ0 : 0 ≤ cfg.psi0) (hψ1 : cfg.psi0 ≤ 1)
    (hS0 : 0 ≤ cfg.S_group) (hS1 : cfg.S_group ≤ 1) :
    ∀ k, 0 < routineM p1 cfg k → routineM p1 cfg k < routineM p2 cfg k
  | 0 => fun hpos => absurd hpos (by simp [routineM])
  | k + 1 => fun hpos => by
      have hc : 0 ≤ routineE cfg k * (routinePsi cfg k * cfg.dt_s) :=
        mul_nonneg (routineE_mem cfg k).1
          (mul_nonneg (routinePsi_mem cfg hψ0 hψ1 hS0 hS1 k).1 hdt)
      have hM1 := routineM_mem p1 cfg k
      have hM2 := routineM_mem p2 cfg k
      have hle := routineM_le_of_alpha p1 p2 cfg hlt.le hdt hψ0 hψ1 hS0 hS1 k
      have hu1lt := rate01_lt_one
        (p1.alpha_E * (routineE cfg k * (routinePsi cfg k * cfg.dt_s)))
      have hu2lt := rate01_lt_one
        (p2.alpha_E * (routineE cfg k * (routinePsi cfg k * cfg.dt_s)))
      have hu1n := rate01_nonneg
        (p1.alpha_E * (routineE cfg k * (routinePsi cfg k * cfg.dt_s)))
      have hu2n := rate01_nonneg
        (p2.alpha_E * (routineE cfg k * (routinePsi cfg k * cfg.dt_s)))
      have humono : rate01 (p1.alpha_E * (routineE cfg k * (routinePsi cfg k * cfg.dt_s))) ≤
          rate01 (p2.alpha_E * (routineE cfg k * (routinePsi cfg k * cfg.dt_s))) :=
        rate01_mono (mul_le_mul_of_nonneg_right hlt.le hc)
      by_cases hp : 0 < routineM p1 cfg k
      · have ih := routineM_lt_of_alpha p1 p2 cfg hlt h0 hdt hψ0 hψ1 hS0 hS1 k hp
        simp only [routineM]
        nlinarith [mul_pos (sub_pos.2 hu1lt) (sub_pos.2 ih),
          mul_nonneg (sub_nonneg.2 humono) (sub_nonneg.2 hM2.2.le)]
      · have hM1z : routineM p1 cfg k = 0 := le_antisymm (not_lt.1 hp) hM1.1
        have hu1pos : 0 < rate01
            (p1.alpha_E * (routineE cfg k * (routinePsi cfg k * cfg.dt_s))) := by
          have h := hpos
          simp only [routineM, hM1z] at h
          nlinarith [h]
        have hargpos : 0 < p1.alpha_E *
            (routineE cfg k * (routinePsi cfg k * cfg.dt_s)) :=
          rate01_pos_iff.1 hu1pos
        have hcpos : 0 < routineE cfg k * (routinePsi cfg k * cfg.dt_s) := by
          nlinarith
        have hstrict : rate01
              (p1.alpha_E * (routineE cfg k * (routinePsi cfg k * cfg.dt_s))) <
            rate01 (p2.alpha_E * (routineE cfg k * (routinePsi cfg k * cfg.dt_s))) :=
          rate01_strictMono hargpos.le
            (by nlinarith)
        simp only [routineM, hM1z]
        nlinarith [mul_nonneg hM2.1 (sub_nonneg.2 hu2lt.le)]

/-- Comparing the threshold search on two series over the same strictly
increasing grid: if the second series dominates the first pointwise, and
strictly so wherever the first has reached the threshold, then the second
reaches the threshold no later, and strictly earlier whenever the first
series starts below the threshold. -/
theorem ttt_mono_lists (th : ℚ) :
    ∀ (t y1 y2 : List ℚ) (τ1 : ℚ),
      List.Chain' (· < ·) t →
      t.length = y1.length → y1.length = y2.length →
      (∀ (i : ℕ) (h1 : i < y1.length) (h2 : i < y2.length),
        y1.get ⟨i, h1⟩ ≤ y2.get ⟨i, h2⟩) →
      (∀ (i : ℕ) (h1 : i < y1.length) (h2 : i < y2.length),
        th ≤ y1.get ⟨i, h1⟩ → y1.get ⟨i, h1⟩ < y2.get ⟨i, h2⟩) →
      time_to_threshold t y1 th = some τ1 →
      ∃ τ2, time_to_threshold t y2 th = some τ2 ∧ τ2 ≤ τ1 ∧
        (∀ (b0 : ℚ) (bs : List ℚ), y1 = b0 :: bs → b0 < th → τ2 < τ1)
  | [], y1, y2, τ1, _, _, _, _, _, hτ => by
      cases y1 <;> simp [time_to_threshold] at hτ
  | [t0], [], _, _, _, hlen1, _, _, _, _ => by simp at hlen1
  | [t0], b0 :: b1 :: bs, _, _, _, hlen1, _, _, _, _ => by simp at hlen1
  | [t0], [b0], [], _, _, _, hlen2, _, _, _ => by simp at hlen2
  | [t0], [b0], c0 :: c1 :: cs, _, _, _, hlen2, _, _, _ => by simp at hlen2
  | [t0], [b0], [c0], τ1, _, _, _, hle, hstrict, hτ => by
      by_cases hb : th ≤ b0
      · have hbc : b0 < c0 := by
          simpa using hstrict 0 (by simp) (by simp) (by simpa using hb)
        have hc : th ≤ c0 := hb.trans hbc.le
        have hτ1 : t0 = τ1 := by simpa [time_to_threshold, hb] using hτ
        refine ⟨t0, by simp [time_to_threshold, hc], le_of_eq hτ1, ?_⟩
        intro b0' bs' heq hlt
        injection heq with h1 h2
        exact absurd hb (not_le.2 (h1 ▸ hlt))
      · simp [time_to_threshold, hb] at hτ
  | t0 :: t1 :: ts, [], _, _, _, hlen1, _, _, _, _ => by simp at hlen1
  | t0 :: t1 :: ts, [b0], _, _, _, hlen1, _, _, _, _ => by simp at hlen1
  | t0 :: t1 :: ts, b0 :: b1 :: bs, [], _, _, _, hlen2, _, _, _ => by
      simp at hlen2
  | t0 :: t1 :: ts, b0 :: b1 :: bs, [c0], _, _, _, hlen2, _, _, _ => by
      simp at hlen2
  | t0 :: t1 :: ts, b0 :: b1 :: bs, c0 :: c1 :: cs, τ1, hch, hlen1, hlen2,
      hle, hstrict, hτ => by
      have h01 : t0 < t1 := (List.chain'_cons.1 hch).1
      have hb0c0 : b0 ≤ c0 := by simpa using hle 0 (by simp) (by simp)
      by_cases hb0 : th ≤ b0
      · have hc0 : th ≤ c0 := hb0.trans hb0c0
        have hτ1 : t0 = τ1 := by simpa [time_to_threshold, hb0] using hτ
        refine ⟨t0, by simp [time_to_threshold, hc0], le_of_eq hτ1, ?_⟩
        intro b0' bs' heq hlt
        injection heq with h1 h2
        exact absurd hb0 (not_le.2 (h1 ▸ hlt))
      · have hb0' : b0 < th := not_le.1 hb0
        have hΔ : 0 < t1 - t0 := by linarith
        by_cases hb1 : th ≤ b1
        · have hτ1 : t0 + (th - b0) * (t1 - t0) / (b1 - b0) = τ1 := by
            simpa [time_to_threshold, hb0, hb1] using hτ
          have hden1 : 0 < b1 - b0 := by linarith
          have hτ1gt : t0 < τ1 := by
            rw [← hτ1]
            have : 0 < (th - b0) * (t1 - t0) / (b1 - b0) :=
              div_pos (mul_pos (by linarith) hΔ) hden1
            linarith
          by_cases hc0 : th ≤ c0
          · exact ⟨t0, by simp [time_to_threshold, hc0], hτ1gt.le,
              fun _ _ _ _ => hτ1gt⟩
          · have hc0' : c0 < th := not_le.1 hc0
            have hb1c1s : b1 < c1 := by
              simpa using hstrict 1 (by simp) (by simp) (by simpa using hb1)
            have hc1 : th ≤ c1 := hb1.trans hb1c1s.le
            have hden2 : 0 < c1 - c0 := by linarith
            have key : (th - c0) * (b1 - b0) < (th - b0) * (c1 - c0) := by
              nlinarith [mul_pos (sub_pos.2 hc0') (sub_pos.2 hb1c1s),
                mul_nonneg (sub_nonneg.2 hb0c0) (sub_nonneg.2 hc1)]
            have hlt2 : (th - c0) * (t1 - t0) / (c1 - c0) <
                (th - b0) * (t1 - t0) / (b1 - b0) := by
              rw [div_lt_div_iff₀ hden2 hden1]
              nlinarith [mul_lt_mul_of_pos_right key hΔ]
            refine ⟨t0 + (th - c0) * (t1 - t0) / (c1 - c0),
              by simp [time_to_threshold, hc0, hc1], ?_, fun _ _ _ _ => ?_⟩
            · rw [← hτ1]; linarith
            · rw [← hτ1]; linarith
        · have hb1' : b1 < th := not_le.1 hb1
          have hτtail : time_to_threshold (t1 :: ts) (b1 :: bs) th = some τ1 := by
            simpa [time_to_threshold, hb0, hb1] using hτ
          have hτ1gt : t1 < τ1 := ttt_pos_of_head_lt th ts t1 b1 bs τ1
            (List.chain'_cons.1 hch).2 hb1' hτtail
          by_cases hc0 : th ≤ c0
          · exact ⟨t0, by simp [time_to_threshold, hc0], by linarith,
              fun _ _ _ _ => by linarith⟩
          · by_cases hc1 : th ≤ c1
            · have hc0' : c0 < th := not_le.1 hc0
              have hden2 : 0 < c1 - c0 := by linarith
              have hfr : (th - c0) * (t1 - t0) / (c1 - c0) ≤ t1 - t0 := by
                rw [div_le_iff₀ hden2]
                nlinarith [mul_le_mul_of_nonneg_right
                  (show th - c0 ≤ c1 - c0 by linarith) hΔ.le]
              refine ⟨t0 + (th - c0) * (t1 - t0) / (c1 - c0),
                by simp [time_to_threshold, hc0, hc1], by linarith,
                fun _ _ _ _ => by linarith⟩
            · have ihle : ∀ (i : ℕ) (h1 : i < (b1 :: bs).length)
                  (h2 : i < (c1 :: cs).length),
                  (b1 :: bs).get ⟨i, h1⟩ ≤ (c1 :: cs).get ⟨i, h2⟩ := by
                intro i h1 h2
                simpa using hle (i + 1) (by simpa using h1) (by simpa using h2)
              have ihstrict : ∀ (i : ℕ) (h1 : i < (b1 :: bs).length)
                  (h2 : i < (c1 :: cs).length),
                  th ≤ (b1 :: bs).get ⟨i, h1⟩ →
                  (b1 :: bs).get ⟨i, h1⟩ < (c1 :: cs).get ⟨i, h2⟩ := by
                intro i h1 h2 hth
                have := hstrict (i + 1) (by simpa using h1) (by simpa using h2)
                  (by simpa using hth)
                simpa using this
              obtain ⟨τ2, hτ2, hle2, hstrict2⟩ := ttt_mono_lists th (t1 :: ts)
                (b1 :: bs) (c1 :: cs) τ1 (List.chain'_cons.1 hch).2
                (by simpa using hlen1) (by simpa using hlen2) ihle ihstrict hτtail
              have hstr : τ2 < τ1 := hstrict2 b1 bs rfl hb1'
              refine ⟨τ2, ?_, hstr.le, fun _ _ _ _ => hstr⟩
              simp only [time_to_threshold]
              rw [if_neg hc0, if_neg hc1]
              exact hτ2

/-- C8: holding the `RoutineConfig` and `alpha_C` fixed, a run with
strictly larger `alpha_E` reaches the meaning threshold M_r = 2/5 at a
strictly earlier interpolated time, whenever the smaller-`alpha_E` run
reaches it at all. -/
theorem alpha_E_sensitivity (p1 p2 : RoutineParams) (cfg : RoutineConfig)
    (r1 r2 : RoutineResult) (τ1 : ℚ)
    (h1 : simulate_routine p1 cfg = .ok r1)
    (h2 : simulate_routine p2 cfg = .ok r2)
    (hsame : p1.alpha_C = p2.alpha_C)
    (hα : p1.alpha_E < p2.alpha_E)
    (hτ1 : time_to_threshold r1.t_s r1.M_r (2/5) = some τ1) :
    ∃ τ2, time_to_threshold r2.t_s r2.M_r (2/5) = some τ2 ∧ τ2 < τ1 := by
  obtain ⟨hv1, rfl⟩ := simulate_routine_ok_iff.1 h1
  obtain ⟨hv2, rfl⟩ := simulate_routine_ok_iff.1 h2
  obtain ⟨hdur, hdt, -, -, -, hψ0, hψ1, hS0, hS1, -, hα1, -⟩ :=
    (validRoutine_iff p1 cfg).1 hv1
  have ht1 : (routineRun p1 cfg).t_s =
      timeVec cfg.dt_s (nSteps cfg.duration_s cfg.dt_s) := rfl
  have ht2 : (routineRun p2 cfg).t_s =
      timeVec cfg.dt_s (nSteps cfg.duration_s cfg.dt_s) := rfl
  have hM1 : (routineRun p1 cfg).M_r =
      (List.range (nSteps cfg.duration_s cfg.dt_s + 1)).map (routineM p1 cfg) := rfl
  have hM2 : (routineRun p2 cfg).M_r =
      (List.range (nSteps cfg.duration_s cfg.dt_s + 1)).map (routineM p2 cfg) := rfl
  rw [ht1, hM1] at hτ1
  rw [ht2, hM2]
  have hch := timeVec_chain cfg.dt_s hdt (nSteps cfg.duration_s cfg.dt_s)
  have hlen1 : (timeVec cfg.dt_s (nSteps cfg.duration_s cfg.dt_s)).length =
      ((List.range (nSteps cfg.duration_s cfg.dt_s + 1)).map
        (routineM p1 cfg)).length := by
    simp [timeVec]
  have hlen2 : ((List.range (nSteps cfg.duration_s cfg.dt_s + 1)).map
        (routineM p1 cfg)).length =
      ((List.range (nSteps cfg.duration_s cfg.dt_s + 1)).map
        (routineM p2 cfg)).length := by
    simp
  have hle : ∀ (i : ℕ)
      (hh1 : i < ((List.range (nSteps cfg.duration_s cfg.dt_s + 1)).map
        (routineM p1 cfg)).length)
      (hh2 : i < ((List.range (nSteps cfg.duration_s cfg.dt_s + 1)).map
        (routineM p2 cfg)).length),
      ((List.range (nSteps cfg.duration_s cfg.dt_s + 1)).map
        (routineM p1 cfg)).get ⟨i, hh1⟩ ≤
      ((List.range (nSteps cfg.duration_s cfg.dt_s + 1)).map
        (routineM p2 cfg)).get ⟨i, hh2⟩ := by
    intro i hh1 hh2
    rw [rangeMap_get, rangeMap_get]
    exact routineM_le_of_alpha p1 p2 cfg hα.le hdt.le hψ0 hψ1 hS0 hS1 i
  have hstrict : ∀ (i : ℕ)
      (hh1 : i < ((List.range (nSteps cfg.duration_s cfg.dt_s + 1)).map
        (routineM p1 cfg)).length)
      (hh2 : i < ((List.range (nSteps cfg.duration_s cfg.dt_s + 1)).map
        (routineM p2 cfg)).length),
      2/5 ≤ ((List.range (nSteps cfg.duration_s cfg.dt_s + 1)).map
        (routineM p1 cfg)).get ⟨i, hh1⟩ →
      ((List.range (nSteps cfg.duration_s cfg.dt_s + 1)).map
        (routineM p1 cfg)).get ⟨i, hh1⟩ <
      ((List.range (nSteps cfg.duration_s cfg.dt_s + 1)).map
        (routineM p2 cfg)).get ⟨i, hh2⟩ := by
    intro i hh1 hh2 hth
    rw [rangeMap_get] at hth ⊢
    rw [rangeMap_get]
    have hpos : 0 < routineM p1 cfg i := lt_of_lt_of_le (by norm_num) hth
    exact routineM_lt_of_alpha p1 p2 cfg hα hα1 hdt.le hψ0 hψ1 hS0 hS1 i hpos
  obtain ⟨τ2, hτ2, hle2, hstrictf⟩ := ttt_mono_lists (2/5) _ _ _ τ1 hch hlen1
    hlen2 hle hstrict hτ1
  refine ⟨τ2, hτ2, ?_⟩
  obtain ⟨bs, hbs⟩ : ∃ bs,
      (List.range (nSteps cfg.duration_s cfg.dt_s + 1)).map (routineM p1 cfg) =
        routineM p1 cfg 0 :: bs := by
    rw [List.range_succ_eq_map]
    exact ⟨List.map (routineM p1 cfg)
      (List.map Nat.succ (List.range (nSteps cfg.duration_s cfg.dt_s))), rfl⟩
  exact hstrictf _ bs hbs (by norm_num [routineM])

/-- Step count of the concrete witness configuration. -/
theorem nStepsW : nSteps cfgW.duration_s cfgW.dt_s = 4 := by
  norm_num [nSteps, cfgW]
  decide

/-- Time vector of the concrete witness run. -/
theorem routineRunW_t : (routineRun pW cfgW).t_s = [0, 1/4, 1/2, 3/4, 1] := by
  rw [routineRun, nStepsW]
  simp [timeVec, List.range_succ, cfgW]
  norm_num

/-- Meaning vector of the concrete witness run. -/
theorem routineRunW_M :
    (routineRun pW cfgW).M_r = [0, 1/5, 9/25, 61/125, 369/625] := by
  rw [routineRun, nStepsW]
  simp [List.range_succ, routineM, routineE, routinePsi, stimAt, noiseAt,
    clamp01, rate01, pW, cfgW]
  norm_num

/-- Threshold time of the concrete witness run with alpha_E = 1. -/
theorem routineRunW_ttt :
    time_to_threshold (routineRun pW cfgW).t_s (routineRun pW cfgW).M_r
      (2/5) = some (37/64) := by
  rw [routineRunW_t, routineRunW_M]
  norm_num [time_to_threshold]

/-- Witness for C8: doubling alpha_E from 1 to 2 (same configuration, no
noise) makes the run reach M_r = 2/5 strictly before 37/64 seconds, the
time the alpha_E = 1 run needs. -/
theorem alpha_E_sensitivity_witness :
    ∃ τ2, time_to_threshold (routineRun pW2 cfgW).t_s
      (routineRun pW2 cfgW).M_r (2/5) = some τ2 ∧ τ2 < 37/64 :=
  alpha_E_sensitivity pW pW2 cfgW (routineRun pW cfgW) (routineRun pW2 cfgW)
    (37/64) simW_routine_ok simW2_routine_ok rfl (by norm_num [pW, pW2])
    routineRunW_ttt
